import Mathlib

/-!
A shallow embedding of the route/island manifest builder of `src/dev/mod.ts`
(`collectDir`, `toImportSpecifier`, `generate`, `dev`, `arraysEqual`).

Strings are modelled by Lean `String` (a packed list of characters); the
JavaScript string primitives used by the source (`split`, `join`, `replace`,
the default comparator of `Array.prototype.sort`) and the `posix` path
helpers of the std library are embedded as character-list functions below.
The filesystem, the formatter subprocess and the environment store are made
explicit inputs, and the side effects of a cycle are recorded as an event
trace, mirroring the control flow of the source line by line.
-/

namespace FreshDev

/-- JavaScript `String.prototype.split` with a single-character separator,
acting on the character list of the string. -/
def splitChar (sep : Char) : List Char → List (List Char)
  | [] => [[]]
  | c :: cs =>
    if c = sep then [] :: splitChar sep cs
    else
      match splitChar sep cs with
      | [] => [[c]]
      | s :: ss => (c :: s) :: ss

/-- JavaScript `Array.prototype.join` with a single-character separator. -/
def joinChar (sep : Char) : List (List Char) → List Char
  | [] => []
  | [s] => s
  | s :: ss => s ++ sep :: joinChar sep ss

/-- Lexicographic comparison of character lists by numeric character value:
the model of the JavaScript `<` operator on strings, hence of the default
comparator of `Array.prototype.sort`.  (JavaScript compares UTF-16 code
units; this model compares code points, which agrees on all of the Basic
Multilingual Plane.) -/
def ltChars : List Char → List Char → Bool
  | [], [] => false
  | [], _ :: _ => true
  | _ :: _, [] => false
  | a :: as, b :: bs =>
    if a.toNat < b.toNat then true
    else if b.toNat < a.toNat then false
    else ltChars as bs

/-- Model of `relative(dir, entry.path).split(".").slice(0, -1).join(".")` — the
logical name computed in `collectDir`: the relative path with exactly its
final extension segment removed. -/
def logicalName (relPath : String) : String :=
  ⟨joinChar '.' ((splitChar '.' relPath.data).dropLast)⟩

/-- One step of the segment normalization performed by `posix.normalize` of
the std path library: empty and `.` segments are dropped, `..` is resolved
against the accumulator (kept in reverse), and leading `..` segments are
retained only for relative paths (`allowAbove`). -/
def pushSeg (allowAbove : Bool) (acc : List (List Char)) (s : List Char) : List (List Char) :=
  if s = [] ∨ s = ['.'] then acc
  else if s = ['.', '.'] then
    match acc with
    | [] => if allowAbove then [['.', '.']] else []
    | a :: rest => if a = ['.', '.'] then (if allowAbove then ['.', '.'] :: a :: rest else a :: rest) else rest
  else s :: acc

/-- Segment normalization of `posix.normalize`. -/
def normSegs (allowAbove : Bool) (segs : List (List Char)) : List (List Char) :=
  (segs.foldl (pushSeg allowAbove) []).reverse

/-- Model of `posix.normalize` of the std path library. -/
def posixNormalize (p : String) : String :=
  if p.data = [] then "."
  else
    let isAbs : Bool := decide (p.data.head? = some '/')
    let trailing : Bool := decide (p.data.getLast? = some '/')
    let core := joinChar '/' (normSegs (!isAbs) (splitChar '/' p.data))
    let core' := if core = [] ∧ isAbs = false then ['.'] else core
    let core'' := if core' ≠ [] ∧ trailing = true then core' ++ ['/'] else core'
    ⟨if isAbs = true then '/' :: core'' else core''⟩

/-- Model of `posix.join` of the std path library restricted to two parts, as used by
`generate` (`join("routes", file)`, `join(directory, "./fresh.gen.ts")`):
the non-empty parts are joined with `/` and the result is normalized. -/
def posixJoin (a b : String) : String :=
  if a = "" ∧ b = "" then "."
  else if a = "" then posixNormalize b
  else if b = "" then posixNormalize a
  else posixNormalize (a ++ "/" ++ b)

/-- Model of `specifier.replace(/\\/g, "/")`: every backslash replaced by a forward
slash. -/
def fixSlashes (cs : List Char) : List Char :=
  cs.map fun c => if c = '\\' then '/' else c

/-- The value `posix.normalize(file).replace(/\\/g, "/")` computed by
`toImportSpecifier` before the `./` prefixing. -/
def specifierBase (file : String) : List Char :=
  fixSlashes (posixNormalize file).data

/-- Function `toImportSpecifier` of `src/dev/mod.ts`. -/
def toImportSpecifier (file : String) : String :=
  let specifier := specifierBase file
  if specifier.head? = some '.' then ⟨specifier⟩ else ⟨'.' :: '/' :: specifier⟩

/-- Hexadecimal digit, for `\u00XX` escapes. -/
def hexDigit (n : Nat) : Char :=
  if n < 10 then Char.ofNat ('0'.toNat + n) else Char.ofNat ('a'.toNat + (n - 10))

/-- The escaping `JSON.stringify` applies to one character inside a string
literal. -/
def jsonEscapeChar (c : Char) : List Char :=
  if c = '"' then ['\\', '"']
  else if c = '\\' then ['\\', '\\']
  else if c = '\x08' then ['\\', 'b']
  else if c = '\x09' then ['\\', 't']
  else if c = '\x0a' then ['\\', 'n']
  else if c = '\x0c' then ['\\', 'f']
  else if c = '\x0d' then ['\\', 'r']
  else if c.toNat < 32 then ['\\', 'u', '0', '0', hexDigit (c.toNat / 16), hexDigit (c.toNat % 16)]
  else [c]

/-- Model of `JSON.stringify` applied to a string value. -/
def jsonStringify (s : String) : String :=
  ⟨'"' :: ((s.data.map jsonEscapeChar).flatten ++ ['"'])⟩

/-- One event yielded by the `walk` async iterator over a scan root: either a
matching file — identified by its `dir`-relative path, i.e. the value
`relative(dir, entry.path)` computed in the loop body — or a traversal
failure raised by the iterator. -/
inductive WalkEvent where
  | file (relPath : String)
  | failure (msg : String)
deriving DecidableEq, Repr

/-- The outcome of the `Deno.stat(dir)` probe at the top of `collectDir`. -/
inductive StatResult where
  | found (isDirectory : Bool)
  | notFound
  | statError (msg : String)
deriving DecidableEq, Repr

/-- Strict ascending stable insertion of one path, under the default
string-comparison ordering. -/
def insertSorted (a : String) : List String → List String
  | [] => [a]
  | b :: bs => if ltChars a.data b.data then a :: b :: bs else b :: insertSorted a bs

/-- JavaScript `paths.sort()`: a stable sort under the default
string-comparison ordering (modelled as a stable insertion sort; ECMAScript
specifies the result of sorting with a consistent comparator up to
stability, so any stable sorting algorithm is an exact model). -/
def sortPaths (paths : List String) : List String :=
  paths.foldr insertSorted []

/-- The ascending ordering the sorted output satisfies: `a` not strictly
greater than `b`. -/
def leStr (a b : String) : Bool :=
  !(ltChars b.data a.data)

/-- The error message thrown on a logical-name conflict. -/
def conflictMsg (dir name : String) : String :=
  "Route conflict detected. Multiple files have the same name: " ++ dir ++ name

/-- The `for await` loop of `collectDir`: `fileNames` is the set of logical
names seen so far (as a list, newest first) and `paths` the relative paths
pushed so far; at the end of the stream the paths are sorted. -/
def collectLoop (dir : String) : List WalkEvent → List String → List String → Except String (List String)
  | [], _, paths => .ok (sortPaths paths)
  | .failure e :: _, _, _ => .error e
  | .file relPath :: rest, fileNames, paths =>
    let fileNameWithoutExt := logicalName relPath
    if fileNames.contains fileNameWithoutExt then
      .error (conflictMsg dir fileNameWithoutExt)
    else
      collectLoop dir rest (fileNameWithoutExt :: fileNames) (paths ++ [relPath])

/-- Function `collectDir` of `src/dev/mod.ts`, with the filesystem made explicit:
`stat` is the result of the `Deno.stat` probe (`NotFound` and
not-a-directory yield an empty sequence, any other stat failure is
rethrown) and `entries` is the stream produced by `walk`. -/
def collectDir (dir : String) (stat : StatResult) (entries : List WalkEvent) : Except String (List String) :=
  match stat with
  | .found false => .ok []
  | .notFound => .ok []
  | .statError e => .error e
  | .found true => collectLoop dir entries [] []

/-- The in-memory manifest assembled by `collect`. -/
structure Manifest where
  routes : List String
  islands : List String
deriving DecidableEq, Repr

/-- Function `arraysEqual` of `src/dev/mod.ts`: length check plus element-by-element
comparison by index. -/
def arraysEqual (a b : List String) : Bool :=
  if a.length ≠ b.length then false
  else (List.range a.length).all fun i => a.getD i "" == b.getD i ""

/-- The header comment of the generated module. -/
def headerComment : String :=
  "// DO NOT EDIT. This file is generated by Fresh.\n// This file SHOULD be checked into source version control.\n// This file is automatically updated during development when running `dev.ts`.\n"

/-- One import line for a routable, bound by position index:
`import * as $i from "<specifier>";`. -/
def routeImportLine (i : Nat) (file : String) : String :=
  "import * as $" ++ toString i ++ " from \"" ++ toImportSpecifier (posixJoin "routes" file) ++ "\";"

/-- One import line for an island, bound as `$$i`. -/
def islandImportLine (i : Nat) (file : String) : String :=
  "import * as $$" ++ toString i ++ " from \"" ++ toImportSpecifier (posixJoin "islands" file) ++ "\";"

/-- One entry of the `routes` registry sub-object: the JSON string form of
the import specifier, mapped to the binding `$i`. -/
def routeRegistryEntry (i : Nat) (file : String) : String :=
  jsonStringify (toImportSpecifier (posixJoin "routes" file)) ++ ": $" ++ toString i ++ ","

/-- One entry of the `islands` registry sub-object, bound to `$$i`. -/
def islandRegistryEntry (i : Nat) (file : String) : String :=
  jsonStringify (toImportSpecifier (posixJoin "islands" file)) ++ ": $$" ++ toString i ++ ","

/-- The template literal rendered by `generate`: the header comment, one
module import statement per route (in sequence order), then one per island,
then the registry object literal with its two sub-objects in the same order
and the fixed `baseUrl: import.meta.url` metadata field. -/
def renderedManifest (routes islands : List String) : String :=
  headerComment ++ "\n"
    ++ String.intercalate "\n" (List.mapIdx routeImportLine routes) ++ "\n"
    ++ String.intercalate "\n" (List.mapIdx islandImportLine islands)
    ++ "\n\nconst manifest = \x7b\n  routes: \x7b\n    "
    ++ String.intercalate "\n    " (List.mapIdx routeRegistryEntry routes)
    ++ "\n  \x7d,\n  islands: \x7b\n    "
    ++ String.intercalate "\n    " (List.mapIdx islandRegistryEntry islands)
    ++ "\n  \x7d,\n  baseUrl: import.meta.url,\n\x7d;\n\nexport default manifest;\n"

/-- Observable side effects of a coordinator cycle. -/
inductive DevEvent where
  | envRead (key : String)
  | envWrite (key : String) (value : Manifest)
  | fmtInvoke (input : String)
  | fileWrite (path : String) (contents : String)
deriving DecidableEq, Repr

/-- Behaviour of the `deno fmt -` subprocess in one `generate` call:
spawning can throw (executable unavailable), piping the rendered text into
the child's stdin can fail (for instance the child crashed before consuming
it), or the child runs to completion with an exit status and a captured
stdout. -/
inductive SpawnResult where
  | spawnError (msg : String)
  | pipeError (msg : String)
  | ran (success : Bool) (stdout : String)
deriving DecidableEq, Repr

/-- Function `generate` of `src/dev/mod.ts`: renders the manifest module text, pipes
it through the formatter subprocess and writes the decoded stdout to
`join(directory, "./fresh.gen.ts")`.  Returns the emitted events and the
overall outcome.  The source never inspects the exit status of the
formatter: whenever the subprocess ran, the decoded stdout — whatever it is
— is written. -/
def generateRun (directory : String) (manifest : Manifest) (fmt : SpawnResult) :
    List DevEvent × Except String Unit :=
  let text := renderedManifest manifest.routes manifest.islands
  match fmt with
  | .spawnError e => ([.fmtInvoke text], .error e)
  | .pipeError e => ([.fmtInvoke text], .error e)
  | .ran _ stdout =>
    ([.fmtInvoke text, .fileWrite (posixJoin directory "./fresh.gen.ts") stdout], .ok ())

/-- Applying the file writes of an event trace to a filesystem modelled as a
partial map from path to contents; `Deno.writeTextFile` overwrites. -/
def applyEvents (fs : String → Option String) : List DevEvent → (String → Option String)
  | [] => fs
  | .fileWrite p c :: rest => applyEvents (fun q => if q = p then some c else fs q) rest
  | .envRead _ :: rest => applyEvents fs rest
  | .envWrite _ _ :: rest => applyEvents fs rest
  | .fmtInvoke _ :: rest => applyEvents fs rest

/-- The environment key holding the cross-restart snapshot. -/
def snapshotKey : String := "FRSH_DEV_PREVIOUS_MANIFEST"

/-- The result of one coordinator cycle. -/
structure DevResult where
  events : List DevEvent
  generated : Bool
deriving Repr

/-- The manifest-regeneration part of `dev` of `src/dev/mod.ts`: read the
previous snapshot from the environment (`none` — covering both an unset
variable and the JS-falsy empty string — means the empty manifest), take the
freshly collected `newManifest`, write it back into the environment
unconditionally, compare field by field with `arraysEqual`, and call
`generate` only on change.  The JSON round-trip through the environment slot
is modelled structurally: the serialization of a manifest is injective, so
the parsed value is exactly the stored manifest. -/
def devCycle (dir : String) (prevSlot : Option Manifest) (newManifest : Manifest)
    (fmt : SpawnResult) : DevResult :=
  let currentManifest : Manifest :=
    match prevSlot with
    | some m => m
    | none => { islands := [], routes := [] }
  let manifestChanged :=
    !(arraysEqual newManifest.routes currentManifest.routes)
      || !(arraysEqual newManifest.islands currentManifest.islands)
  let genEvents := if manifestChanged then (generateRun dir newManifest fmt).1 else []
  { events := .envRead snapshotKey :: .envWrite snapshotKey newManifest :: genEvents,
    generated := manifestChanged }

/-- Recognizer for environment reads in an event trace. -/
def isEnvRead : DevEvent → Bool
  | .envRead _ => true
  | _ => false

/-- Recognizer for environment writes. -/
def isEnvWrite : DevEvent → Bool
  | .envWrite _ _ => true
  | _ => false

/-- Recognizer for formatter invocations. -/
def isFmtInvoke : DevEvent → Bool
  | .fmtInvoke _ => true
  | _ => false

/-- Recognizer for file writes. -/
def isFileWrite : DevEvent → Bool
  | .fileWrite _ _ => true
  | _ => false

/-! ### Basic lemmas -/

theorem arraysEqual_eq_true_iff (a b : List String) : arraysEqual a b = true ↔ a = b := by
  unfold arraysEqual
  split
  · rename_i h
    simp only [Bool.false_eq_true, false_iff]
    rintro rfl
    exact h rfl
  · rename_i h
    rw [ne_eq, not_not] at h
    rw [List.all_eq_true]
    constructor
    · intro hall
      refine List.ext_getElem h fun i h1 h2 => ?_
      have hi := hall i (List.mem_range.2 h1)
      rwa [List.getD_eq_getElem _ _ h1, List.getD_eq_getElem _ _ h2, beq_iff_eq] at hi
    · rintro rfl i _
      simp

theorem manifest_ne_iff (m₁ m₂ : Manifest) :
    m₁ ≠ m₂ ↔ m₁.routes ≠ m₂.routes ∨ m₁.islands ≠ m₂.islands := by
  cases m₁
  cases m₂
  simp only [ne_eq, Manifest.mk.injEq, not_and_or]

theorem arraysEqual_eq_false_iff (a b : List String) : arraysEqual a b = false ↔ a ≠ b := by
  rw [← Bool.not_eq_true, arraysEqual_eq_true_iff]

theorem devCycle_events_eq (dir : String) (prevSlot : Option Manifest)
    (newManifest : Manifest) (fmt : SpawnResult) :
    (devCycle dir prevSlot newManifest fmt).events
      = DevEvent.envRead snapshotKey :: DevEvent.envWrite snapshotKey newManifest ::
        (if (devCycle dir prevSlot newManifest fmt).generated then
          (generateRun dir newManifest fmt).1 else []) := by
  simp only [devCycle]

theorem devCycle_generated_iff (dir : String) (prevSlot : Option Manifest)
    (newManifest : Manifest) (fmt : SpawnResult) :
    (devCycle dir prevSlot newManifest fmt).generated = true
      ↔ newManifest ≠ prevSlot.getD ⟨[], []⟩ := by
  cases prevSlot <;>
    simp [devCycle, arraysEqual_eq_false_iff, manifest_ne_iff, Option.getD,
      Bool.or_eq_true, Bool.not_eq_true']

theorem generateRun_countP_fmtInvoke (dir : String) (m : Manifest) (fmt : SpawnResult) :
    (generateRun dir m fmt).1.countP isFmtInvoke = 1 := by
  cases fmt <;> simp [generateRun, isFmtInvoke, List.countP_cons]

theorem generateRun_no_env (dir : String) (m : Manifest) (fmt : SpawnResult) :
    (generateRun dir m fmt).1.countP isEnvRead = 0 ∧
    (generateRun dir m fmt).1.countP isEnvWrite = 0 := by
  cases fmt <;> simp [generateRun, isEnvRead, isEnvWrite, List.countP_cons]

/-! ### C1 — formatter failure handling in `generate` -/

/-- Claim C1 (counterexample): run `generate` with the formatter subprocess
exiting with failure (`success = false`) and producing no output.  The claim
says the step must fail fatally with no file written; instead the step
succeeds and the registry file is written with the empty captured stdout. -/
theorem generate_formatter_failure_still_writes :
    DevEvent.fileWrite "p/fresh.gen.ts" "" ∈ (generateRun "p" ⟨[], []⟩ (.ran false "")).1 ∧
    (generateRun "p" ⟨[], []⟩ (.ran false "")).2 = .ok () := by
  refine ⟨?_, rfl⟩
  have : posixJoin "p" "./fresh.gen.ts" = "p/fresh.gen.ts" := by decide
  simp [generateRun, this]

/-- Claim C1 (amended): if the formatter executable cannot be spawned, or piping
the rendered text into it fails, `generate` fails and performs no file write;
but when the subprocess runs to completion the captured stdout is written to
the registry file unconditionally — the exit status and emptiness of the
output are never checked. -/
theorem generate_formatter_handling (dir : String) (m : Manifest) (e : String)
    (success : Bool) (out : String) :
    ((generateRun dir m (.spawnError e)).2 = .error e ∧
      ∀ ev ∈ (generateRun dir m (.spawnError e)).1, isFileWrite ev = false) ∧
    ((generateRun dir m (.pipeError e)).2 = .error e ∧
      ∀ ev ∈ (generateRun dir m (.pipeError e)).1, isFileWrite ev = false) ∧
    (generateRun dir m (.ran success out)).1
      = [.fmtInvoke (renderedManifest m.routes m.islands),
         .fileWrite (posixJoin dir "./fresh.gen.ts") out] ∧
    (generateRun dir m (.ran success out)).2 = .ok () := by
  refine ⟨⟨rfl, ?_⟩, ⟨rfl, ?_⟩, rfl, rfl⟩ <;> simp [generateRun, isFileWrite]

/-- Witness for the amended C1 at a concrete input. -/
theorem generate_formatter_handling_witness :
    ((generateRun "p" ⟨[], []⟩ (.spawnError "enoent")).2 = .error "enoent" ∧
      ∀ ev ∈ (generateRun "p" ⟨[], []⟩ (.spawnError "enoent")).1, isFileWrite ev = false) ∧
    ((generateRun "p" ⟨[], []⟩ (.pipeError "enoent")).2 = .error "enoent" ∧
      ∀ ev ∈ (generateRun "p" ⟨[], []⟩ (.pipeError "enoent")).1, isFileWrite ev = false) ∧
    (generateRun "p" ⟨[], []⟩ (.ran true "txt")).1
      = [.fmtInvoke (renderedManifest [] []), .fileWrite (posixJoin "p" "./fresh.gen.ts") "txt"] ∧
    (generateRun "p" ⟨[], []⟩ (.ran true "txt")).2 = .ok () :=
  generate_formatter_handling "p" ⟨[], []⟩ "enoent" true "txt"

/-! ### C2 — change detection gates regeneration -/

/-- Claim C2: in every coordinator cycle the generator runs if and only if the
freshly collected manifest differs from the previous snapshot under
element-by-element structural comparison of the two sequences (length
included); in an unchanged cycle no file write and no formatter invocation
occur, and in a changed cycle the formatter is invoked exactly once. -/
theorem dev_generates_iff_manifest_changed (dir : String) (prevSlot : Option Manifest)
    (newManifest : Manifest) (fmt : SpawnResult) :
    ((devCycle dir prevSlot newManifest fmt).generated = true ↔
      newManifest ≠ prevSlot.getD ⟨[], []⟩) ∧
    ((devCycle dir prevSlot newManifest fmt).generated = false →
      (devCycle dir prevSlot newManifest fmt).events.countP isFileWrite = 0 ∧
      (devCycle dir prevSlot newManifest fmt).events.countP isFmtInvoke = 0) ∧
    ((devCycle dir prevSlot newManifest fmt).generated = true →
      (devCycle dir prevSlot newManifest fmt).events.countP isFmtInvoke = 1) := by
  refine ⟨devCycle_generated_iff dir prevSlot newManifest fmt, ?_, ?_⟩
  · intro hg
    rw [devCycle_events_eq, hg]
    simp [isFileWrite, isFmtInvoke, List.countP_cons]
  · intro hg
    rw [devCycle_events_eq, hg]
    simp [isFileWrite, isFmtInvoke, List.countP_cons, generateRun_countP_fmtInvoke]

/-- Witness for C2 at concrete inputs: an unchanged cycle performs no write
and no formatter call; a changed one reports a change. -/
theorem dev_generates_iff_manifest_changed_witness :
    ((devCycle "p" (some ⟨["a.ts"], []⟩) ⟨["a.ts"], []⟩ (.ran true "x")).generated = true ↔
      (⟨["a.ts"], []⟩ : Manifest) ≠ (some (⟨["a.ts"], []⟩ : Manifest)).getD ⟨[], []⟩) ∧
    ((devCycle "p" (some ⟨["a.ts"], []⟩) ⟨["a.ts"], []⟩ (.ran true "x")).generated = false →
      (devCycle "p" (some ⟨["a.ts"], []⟩) ⟨["a.ts"], []⟩ (.ran true "x")).events.countP isFileWrite = 0 ∧
      (devCycle "p" (some ⟨["a.ts"], []⟩) ⟨["a.ts"], []⟩ (.ran true "x")).events.countP isFmtInvoke = 0) ∧
    ((devCycle "p" (some ⟨["a.ts"], []⟩) ⟨["a.ts"], []⟩ (.ran true "x")).generated = true →
      (devCycle "p" (some ⟨["a.ts"], []⟩) ⟨["a.ts"], []⟩ (.ran true "x")).events.countP isFmtInvoke = 1) :=
  dev_generates_iff_manifest_changed "p" (some ⟨["a.ts"], []⟩) ⟨["a.ts"], []⟩ (.ran true "x")

/-! ### C9 — snapshot lifecycle -/

/-- Claim C9: in every coordinator cycle the environment snapshot slot is read
exactly once — as the very first step — and written exactly once, with the
freshly collected manifest, unconditionally (also in unchanged cycles). -/
theorem dev_snapshot_read_once_written_once (dir : String) (prevSlot : Option Manifest)
    (newManifest : Manifest) (fmt : SpawnResult) :
    (devCycle dir prevSlot newManifest fmt).events.countP isEnvRead = 1 ∧
    (devCycle dir prevSlot newManifest fmt).events.countP isEnvWrite = 1 ∧
    (devCycle dir prevSlot newManifest fmt).events.head? = some (.envRead snapshotKey) ∧
    DevEvent.envWrite snapshotKey newManifest ∈ (devCycle dir prevSlot newManifest fmt).events := by
  rw [devCycle_events_eq]
  have hr := (generateRun_no_env dir newManifest fmt).1
  have hw := (generateRun_no_env dir newManifest fmt).2
  refine ⟨?_, ?_, rfl, by simp⟩ <;>
    cases (devCycle dir prevSlot newManifest fmt).generated <;>
      simp [List.countP_cons, isEnvRead, isEnvWrite, hr, hw]

/-! ### Ordering lemmas for the string comparison -/

theorem ltChars_asymm : ∀ {a b : List Char}, ltChars a b = true → ltChars b a = false
  | [], [] => by simp [ltChars]
  | [], _ :: _ => by simp [ltChars]
  | _ :: _, [] => by simp [ltChars]
  | a :: as, b :: bs => by
    by_cases h1 : a.toNat < b.toNat
    · simp [ltChars, h1, Nat.lt_asymm h1]
    · by_cases h2 : b.toNat < a.toNat
      · simp [ltChars, h1, h2]
      · simp only [ltChars, if_neg h1, if_neg h2]
        exact fun h => ltChars_asymm h

theorem ltChars_eq_of_not : ∀ {a b : List Char}, ltChars a b = false → ltChars b a = false → a = b
  | [], [] => by simp
  | [], _ :: _ => by simp [ltChars]
  | _ :: _, [] => by simp [ltChars]
  | a :: as, b :: bs => by
    by_cases h1 : a.toNat < b.toNat
    · simp [ltChars, h1]
    · by_cases h2 : b.toNat < a.toNat
      · simp [ltChars, h1, h2]
      · simp only [ltChars, if_neg h1, if_neg h2]
        intro hab hba
        have ht : a.toNat = b.toNat := by omega
        have hc : a = b := Char.ext (UInt32.toNat.inj ht)
        rw [hc, ltChars_eq_of_not hab hba]

theorem ltChars_trans : ∀ {a b c : List Char},
    ltChars a b = true → ltChars b c = true → ltChars a c = true
  | [], [], _ => by simp [ltChars]
  | [], _ :: _, [] => by simp [ltChars]
  | [], _ :: _, _ :: _ => by simp [ltChars]
  | _ :: _, [], _ => by simp [ltChars]
  | _ :: _, _ :: _, [] => by simp [ltChars]
  | a :: as, b :: bs, c :: cs => by
    simp only [ltChars]
    by_cases hab : a.toNat < b.toNat
    · by_cases hbc : b.toNat < c.toNat
      · intro _ _
        rw [if_pos (Nat.lt_trans hab hbc)]
      · by_cases hcb : c.toNat < b.toNat
        · rw [if_neg hbc, if_pos hcb]
          intro _ h
          cases h
        · intro _ _
          rw [if_pos (show a.toNat < c.toNat by omega)]
    · by_cases hba : b.toNat < a.toNat
      · rw [if_neg hab, if_pos hba]
        intro h
        cases h
      · rw [if_neg hab, if_neg hba]
        by_cases hbc : b.toNat < c.toNat
        · intro _ _
          rw [if_pos (show a.toNat < c.toNat by omega)]
        · by_cases hcb : c.toNat < b.toNat
          · rw [if_neg hbc, if_pos hcb]
            intro _ h
            cases h
          · rw [if_neg hbc, if_neg hcb,
              if_neg (show ¬a.toNat < c.toNat by omega),
              if_neg (show ¬c.toNat < a.toNat by omega)]
            exact fun h1 h2 => ltChars_trans h1 h2

theorem leStr_of_lt {a b : String} (h : ltChars a.data b.data = true) : leStr a b = true := by
  simp [leStr, ltChars_asymm h]

theorem leStr_of_not_lt {a b : String} (h : ltChars a.data b.data = false) : leStr b a = true := by
  simp [leStr, h]

theorem leStr_trans {a b c : String} (h1 : leStr a b = true) (h2 : leStr b c = true) :
    leStr a c = true := by
  simp only [leStr, Bool.not_eq_true'] at h1 h2 ⊢
  cases hab : ltChars a.data b.data with
  | true =>
    cases hca : ltChars c.data a.data with
    | true => rw [ltChars_trans hca hab] at h2; cases h2
    | false => rfl
  | false =>
    have : a.data = b.data := ltChars_eq_of_not hab h1
    rw [← this] at h2
    exact h2

theorem leStr_antisymm {a b : String} (h1 : leStr a b = true) (h2 : leStr b a = true) : a = b := by
  simp only [leStr, Bool.not_eq_true'] at h1 h2
  exact String.ext (ltChars_eq_of_not h2 h1)

/-! ### Sorting lemmas -/

theorem insertSorted_perm (a : String) : ∀ l : List String, (insertSorted a l).Perm (a :: l)
  | [] => List.Perm.refl _
  | b :: bs => by
    unfold insertSorted
    split
    · exact List.Perm.refl _
    · exact ((insertSorted_perm a bs).cons b).trans (List.Perm.swap a b bs)

theorem sortPaths_perm : ∀ l : List String, (sortPaths l).Perm l
  | [] => List.Perm.refl _
  | a :: l => by
    have h1 : sortPaths (a :: l) = insertSorted a (sortPaths l) := rfl
    rw [h1]
    exact (insertSorted_perm a (sortPaths l)).trans ((sortPaths_perm l).cons a)

theorem insertSorted_pairwise (a : String) : ∀ l : List String,
    l.Pairwise (fun x y => leStr x y = true) →
    (insertSorted a l).Pairwise (fun x y => leStr x y = true)
  | [], _ => by simp [insertSorted]
  | b :: bs, h => by
    rw [List.pairwise_cons] at h
    obtain ⟨hb, hbs⟩ := h
    unfold insertSorted
    split
    · rename_i hab
      refine List.Pairwise.cons ?_ (List.Pairwise.cons hb hbs)
      intro x hx
      rcases List.mem_cons.1 hx with rfl | hx
      · exact leStr_of_lt hab
      · exact leStr_trans (leStr_of_lt hab) (hb x hx)
    · rename_i hab
      rw [Bool.not_eq_true] at hab
      refine List.Pairwise.cons ?_ (insertSorted_pairwise a bs hbs)
      intro x hx
      have hx' := (insertSorted_perm a bs).mem_iff.1 hx
      rcases List.mem_cons.1 hx' with rfl | hx'
      · exact leStr_of_not_lt hab
      · exact hb x hx'

theorem sortPaths_pairwise : ∀ l : List String,
    (sortPaths l).Pairwise (fun x y => leStr x y = true)
  | [] => List.Pairwise.nil
  | a :: l => insertSorted_pairwise a (sortPaths l) (sortPaths_pairwise l)

/-! ### `collectDir` loop lemmas -/

theorem collectLoop_clean (dir : String) : ∀ (files : List String)
    (evts : List WalkEvent) (fileNames paths : List String),
    (files.map logicalName).Nodup →
    (∀ n ∈ files.map logicalName, n ∉ fileNames) →
    collectLoop dir (files.map .file ++ evts) fileNames paths
      = collectLoop dir evts ((files.map logicalName).reverse ++ fileNames) (paths ++ files)
  | [], evts, fileNames, paths, _, _ => by simp
  | f :: fs, evts, fileNames, paths, hnd, hfresh => by
    have hf : logicalName f ∉ fileNames := hfresh _ (by simp)
    rw [List.map_cons, List.nodup_cons] at hnd
    have hcontains : fileNames.contains (logicalName f) = false := by
      rw [← Bool.not_eq_true]
      exact fun h => hf (List.elem_iff.1 h)
    have hstep : collectLoop dir ((f :: fs).map .file ++ evts) fileNames paths
        = collectLoop dir (fs.map .file ++ evts) (logicalName f :: fileNames) (paths ++ [f]) := by
      simp only [List.map_cons, List.cons_append, collectLoop, hcontains, Bool.false_eq_true,
        if_false, List.append_eq]
    rw [hstep, collectLoop_clean dir fs evts (logicalName f :: fileNames) (paths ++ [f]) hnd.2 ?_]
    · simp
    · intro n hn
      simp only [List.mem_cons, not_or]
      exact ⟨fun h => hnd.1 (h ▸ hn), hfresh n (by simp [hn])⟩

theorem collectLoop_ok_result (dir : String) : ∀ (files : List String)
    (fileNames paths l : List String),
    collectLoop dir (files.map .file) fileNames paths = .ok l →
    l = sortPaths (paths ++ files)
  | [], _, paths, l, h => by
    simp only [List.map_nil, collectLoop, Except.ok.injEq] at h
    simp [← h]
  | f :: fs, fileNames, paths, l, h => by
    simp only [List.map_cons, collectLoop] at h
    split at h
    · cases h
    · have := collectLoop_ok_result dir fs _ _ l h
      simpa using this

theorem collectLoop_conflict (dir : String) : ∀ (files : List String)
    (fileNames paths : List String),
    ((∃ n ∈ files.map logicalName, n ∈ fileNames) ∨ ¬(files.map logicalName).Nodup) →
    ∃ name, collectLoop dir (files.map .file) fileNames paths = .error (conflictMsg dir name) ∧
      name ∈ files.map logicalName ∧
      (name ∈ fileNames ∨ 2 ≤ (files.map logicalName).count name)
  | [], fileNames, paths, h => by simp at h
  | f :: fs, fileNames, paths, h => by
    by_cases hc : logicalName f ∈ fileNames
    · refine ⟨logicalName f, ?_, by simp, Or.inl hc⟩
      simp only [List.map_cons, collectLoop]
      rw [if_pos (by simpa using (List.elem_iff.2 hc : _))]
    · have hstep : ((∃ n ∈ fs.map logicalName, n ∈ logicalName f :: fileNames) ∨
          ¬(fs.map logicalName).Nodup) := by
        rcases h with ⟨n, hn, hnf⟩ | hnd
        · rcases List.mem_cons.1 (List.map_cons logicalName f fs ▸ hn) with rfl | hn'
          · exact absurd hnf hc
          · exact Or.inl ⟨n, hn', List.mem_cons_of_mem _ hnf⟩
        · rw [List.map_cons, List.nodup_cons, not_and_or, not_not] at hnd
          rcases hnd with hmem | hnd
          · exact Or.inl ⟨logicalName f, hmem, List.mem_cons_self _ _⟩
          · exact Or.inr hnd
      obtain ⟨name, herr, hmem, hor⟩ := collectLoop_conflict dir fs (logicalName f :: fileNames) (paths ++ [f]) hstep
      refine ⟨name, ?_, List.mem_cons_of_mem _ (by simpa using hmem), ?_⟩
      · simp only [List.map_cons, collectLoop]
        rw [if_neg (by simpa using (List.elem_iff.not.2 hc : ¬_))]
        exact herr
      · rcases hor with hnf | hcount
        · rcases List.mem_cons.1 hnf with hname | hnf'
          · subst hname
            refine Or.inr ?_
            have h1 : 1 ≤ (fs.map logicalName).count (logicalName f) := List.one_le_count_iff.2 hmem
            simp only [List.map_cons, List.count_cons, beq_self_eq_true, if_true]
            omega
          · exact Or.inl hnf'
        · refine Or.inr ?_
          simp only [List.map_cons, List.count_cons]
          omega

/-! ### C3 — logical-name conflicts abort the scan -/

/-- Claim C3: whenever two visited files of one scan root share a logical name
(relative path with the final extension segment dropped), `collectDir`
returns an error — never a sequence containing both files — and the error
message is the conflict message naming the scanned directory and the
duplicated logical name. -/
theorem collectDir_conflict_fails (dir : String) (files : List String)
    (h : ¬(files.map logicalName).Nodup) :
    ∃ name, 2 ≤ (files.map logicalName).count name ∧
      collectDir dir (.found true) (files.map .file)
        = .error (conflictMsg dir name) := by
  obtain ⟨name, herr, _, hor⟩ := collectLoop_conflict dir files [] [] (Or.inr h)
  rcases hor with hf | hcount
  · exact absurd hf (List.not_mem_nil name)
  · exact ⟨name, hcount, herr⟩

/-- Witness for C3: `foo.ts` and `foo.tsx` under one root collide on the
logical name `foo`. -/
theorem collectDir_conflict_fails_witness :
    ¬((["foo.ts", "foo.tsx"].map logicalName).Nodup) ∧
    ∃ name, 2 ≤ ((["foo.ts", "foo.tsx"].map logicalName).count name) ∧
      collectDir "a" (.found true) (["foo.ts", "foo.tsx"].map .file)
        = .error (conflictMsg "a" name) :=
  ⟨by decide, collectDir_conflict_fails "a" ["foo.ts", "foo.tsx"] (by decide)⟩

/-! ### C4 — absent roots are tolerated, other failures propagate -/

/-- Claim C4: a scan root that does not exist, or exists but is not a
directory, yields `ok []`; a `stat` failure other than not-found propagates
as an error, and a traversal failure raised mid-stream (after any
conflict-free prefix of files) propagates as an error as well. -/
theorem collectDir_absent_root_and_error_propagation (dir e : String)
    (entries : List WalkEvent) (pre : List String) (rest : List WalkEvent)
    (h : (pre.map logicalName).Nodup) :
    collectDir dir .notFound entries = .ok [] ∧
    collectDir dir (.found false) entries = .ok [] ∧
    collectDir dir (.statError e) entries = .error e ∧
    collectDir dir (.found true) (pre.map .file ++ .failure e :: rest) = .error e := by
  refine ⟨rfl, rfl, rfl, ?_⟩
  show collectLoop dir (pre.map .file ++ .failure e :: rest) [] [] = .error e
  rw [collectLoop_clean dir pre (.failure e :: rest) [] [] h (by simp)]
  rfl

/-- Witness for C4 at concrete inputs. -/
theorem collectDir_absent_root_witness :
    ((["b.ts", "a.ts"].map logicalName).Nodup) ∧
    (collectDir "r" .notFound [.file "x.ts"] = .ok [] ∧
      collectDir "r" (.found false) [.file "x.ts"] = .ok [] ∧
      collectDir "r" (.statError "eacces") [.file "x.ts"] = .error "eacces" ∧
      collectDir "r" (.found true) (["b.ts", "a.ts"].map .file ++ .failure "eacces" :: [])
        = .error "eacces") :=
  ⟨by decide,
    collectDir_absent_root_and_error_propagation "r" "eacces" [.file "x.ts"] ["b.ts", "a.ts"] []
      (by decide)⟩

/-! ### C5 — scans are deterministic and sorted -/

/-- Claim C5: a successful scan returns the visited relative paths in
ascending lexicographic order; the result is a permutation of the visited
files and is independent of the traversal order the filesystem yields them
in — two successful scans over traversals that are permutations of one
another return the same sequence. -/
theorem collectDir_deterministic_sorted (dir dir' : String) (files files' l l' : List String)
    (hperm : files.Perm files')
    (h : collectDir dir (.found true) (files.map .file) = .ok l)
    (h' : collectDir dir' (.found true) (files'.map .file) = .ok l') :
    l = l' ∧ l.Perm files ∧ l.Pairwise (fun a b => leStr a b = true) := by
  have hl : l = sortPaths files := by
    have hr := collectLoop_ok_result dir files [] [] l h
    simpa using hr
  have hl' : l' = sortPaths files' := by
    have hr := collectLoop_ok_result dir' files' [] [] l' h'
    simpa using hr
  subst hl hl'
  refine ⟨?_, sortPaths_perm files, sortPaths_pairwise files⟩
  have p1 : (sortPaths files).Perm (sortPaths files') :=
    (sortPaths_perm files).trans (hperm.trans (sortPaths_perm files').symm)
  haveI : IsAntisymm String fun a b => leStr a b = true := ⟨fun _ _ => leStr_antisymm⟩
  exact List.eq_of_perm_of_sorted p1 (sortPaths_pairwise files) (sortPaths_pairwise files')

/-- Witness for C5: two traversal orders of the same two files produce the
identical sorted sequence. -/
theorem collectDir_deterministic_sorted_witness :
    (["b.ts", "a.ts"] : List String).Perm ["a.ts", "b.ts"] ∧
    collectDir "r" (.found true) (["b.ts", "a.ts"].map .file) = .ok ["a.ts", "b.ts"] ∧
    collectDir "s" (.found true) (["a.ts", "b.ts"].map .file) = .ok ["a.ts", "b.ts"] ∧
    (["a.ts", "b.ts"] = (["a.ts", "b.ts"] : List String) ∧
      (["a.ts", "b.ts"] : List String).Perm ["b.ts", "a.ts"] ∧
      (["a.ts", "b.ts"] : List String).Pairwise fun a b => leStr a b = true) :=
  ⟨by decide, by rfl, by rfl,
    collectDir_deterministic_sorted "r" "s" ["b.ts", "a.ts"] ["a.ts", "b.ts"]
      ["a.ts", "b.ts"] ["a.ts", "b.ts"] (by decide) (by rfl) (by rfl)⟩

/-! ### Split/join lemmas -/

theorem splitChar_ne_nil (sep : Char) : ∀ cs : List Char, splitChar sep cs ≠ []
  | [] => by simp [splitChar]
  | c :: cs => by
    by_cases h : c = sep
    · simp [splitChar, h]
    · simp only [splitChar, if_neg h]
      split <;> simp

theorem joinChar_cons (sep : Char) (s : List Char) {ss : List (List Char)} (h : ss ≠ []) :
    joinChar sep (s :: ss) = s ++ sep :: joinChar sep ss := by
  cases ss with
  | nil => exact absurd rfl h
  | cons t ts => rfl

theorem joinChar_splitChar : ∀ (sep : Char) (cs : List Char), joinChar sep (splitChar sep cs) = cs
  | _, [] => rfl
  | sep, c :: cs => by
    by_cases h : c = sep
    · rw [h]
      show joinChar sep (splitChar sep (sep :: cs)) = sep :: cs
      rw [show splitChar sep (sep :: cs) = [] :: splitChar sep cs from by simp [splitChar]]
      rw [joinChar_cons sep [] (splitChar_ne_nil sep cs)]
      rw [joinChar_splitChar sep cs]
      rfl
    · rcases hs : splitChar sep cs with _ | ⟨s, ss⟩
      · exact absurd hs (splitChar_ne_nil sep cs)
      · show joinChar sep (splitChar sep (c :: cs)) = c :: cs
        rw [show splitChar sep (c :: cs) = (c :: s) :: ss from by simp [splitChar, h, hs]]
        have hj : joinChar sep (splitChar sep cs) = cs := joinChar_splitChar sep cs
        rw [hs] at hj
        cases ss with
        | nil =>
          simp only [joinChar] at hj ⊢
          rw [hj]
        | cons t ts =>
          rw [joinChar_cons sep (c :: s) (by simp)]
          rw [joinChar_cons sep s (by simp)] at hj
          rw [List.cons_append, hj]

theorem splitChar_append : ∀ (sep : Char) (xs ys : List Char),
    splitChar sep (xs ++ sep :: ys) = splitChar sep xs ++ splitChar sep ys
  | sep, [], ys => by simp [splitChar]
  | sep, x :: xs, ys => by
    by_cases h : x = sep
    · rw [h]
      simp only [List.cons_append, splitChar, if_pos rfl, List.append_eq]
      rw [splitChar_append sep xs ys]
      rfl
    · simp only [List.cons_append, splitChar, if_neg h, List.append_eq]
      rw [splitChar_append sep xs ys]
      rcases hs : splitChar sep xs with _ | ⟨s, ss⟩
      · exact absurd hs (splitChar_ne_nil sep xs)
      · rfl

theorem splitChar_of_not_mem (sep : Char) : ∀ cs : List Char, sep ∉ cs → splitChar sep cs = [cs]
  | [], _ => rfl
  | c :: cs, h => by
    have hc : c ≠ sep := fun hh => h (hh ▸ List.mem_cons_self c cs)
    simp only [splitChar, if_neg hc]
    rw [splitChar_of_not_mem sep cs (fun hh => h (List.mem_cons_of_mem c hh))]

/-! ### C8 — logical names -/

/-- Claim C8: the logical name of a visited file is its relative path with
exactly the final `.`-separated segment removed: for any extension segment
containing no dot, `logicalName (stem ++ "." ++ ext) = stem`; in particular
`a/foo.ts` and `a/foo.tsx` both yield `a/foo`, and `movies/[foo].json.ts`
yields `movies/[foo].json`. -/
theorem logicalName_drops_final_extension (stem ext : String) (h : '.' ∉ ext.data) :
    logicalName ⟨stem.data ++ '.' :: ext.data⟩ = stem ∧
    logicalName "a/foo.ts" = "a/foo" ∧
    logicalName "a/foo.tsx" = "a/foo" ∧
    logicalName "movies/[foo].json.ts" = "movies/[foo].json" := by
  refine ⟨?_, by decide, by decide, by decide⟩
  unfold logicalName
  show (⟨joinChar '.' ((splitChar '.' (stem.data ++ '.' :: ext.data)).dropLast)⟩ : String) = stem
  rw [splitChar_append, splitChar_of_not_mem '.' ext.data h, List.dropLast_concat,
    joinChar_splitChar]

/-- Witness for C8 at a concrete stem and extension. -/
theorem logicalName_drops_final_extension_witness :
    '.' ∉ ("ts" : String).data ∧
    (logicalName ⟨("a/foo" : String).data ++ '.' :: ("ts" : String).data⟩ = "a/foo" ∧
      logicalName "a/foo.ts" = "a/foo" ∧
      logicalName "a/foo.tsx" = "a/foo" ∧
      logicalName "movies/[foo].json.ts" = "movies/[foo].json") :=
  ⟨by decide, logicalName_drops_final_extension "a/foo" "ts" (by decide)⟩

/-! ### C7 — import specifiers use forward slashes and a `./` marker -/

/-- Claim C7: every import specifier contains no backslash, always begins with
a `.`, and whenever the normalized slash-fixed path does not already begin
with the relative-path marker `.` the specifier is exactly that path with
`./` prepended — irrespective of the path-separator convention of the
input. -/
theorem toImportSpecifier_forward_slashes (p : String) :
    '\\' ∉ (toImportSpecifier p).data ∧
    (toImportSpecifier p).data.head? = some '.' ∧
    ((specifierBase p).head? ≠ some '.' →
      (toImportSpecifier p).data = '.' :: '/' :: specifierBase p) := by
  have hnb : '\\' ∉ specifierBase p := by
    unfold specifierBase fixSlashes
    intro hmem
    obtain ⟨c, _, hc⟩ := List.mem_map.1 hmem
    by_cases h : c = '\\' <;> simp [h] at hc
  by_cases hh : (specifierBase p).head? = some '.'
  · have he : toImportSpecifier p = ⟨specifierBase p⟩ := by
      simp only [toImportSpecifier, if_pos hh]
    rw [he]
    exact ⟨hnb, hh, fun hcon => absurd hh hcon⟩
  · have he : toImportSpecifier p = ⟨'.' :: '/' :: specifierBase p⟩ := by
      simp only [toImportSpecifier, if_neg hh]
    rw [he]
    refine ⟨?_, rfl, fun _ => rfl⟩
    show '\\' ∉ '.' :: '/' :: specifierBase p
    simp only [List.mem_cons]
    rintro (h | h | h)
    · exact absurd h (by decide)
    · exact absurd h (by decide)
    · exact hnb h

/-- Witness for C7: a path written with host backslash separators renders
with forward slashes and a leading `./`. -/
theorem toImportSpecifier_forward_slashes_witness :
    '\\' ∉ (toImportSpecifier "sub\\dir\\file.tsx").data ∧
    (toImportSpecifier "sub\\dir\\file.tsx").data.head? = some '.' ∧
    ((specifierBase "sub\\dir\\file.tsx").head? ≠ some '.' →
      (toImportSpecifier "sub\\dir\\file.tsx").data
        = '.' :: '/' :: specifierBase "sub\\dir\\file.tsx") :=
  toImportSpecifier_forward_slashes "sub\\dir\\file.tsx"

/-! ### C6 — shape of the generated module and its persistence -/

set_option maxRecDepth 20000 in
/-- Claim C6: the rendered module text is the header comment followed by one
module import statement per route in sequence order (bound `$0, $1, …`),
then one per island (bound `$$0, $$1, …`), then the registry literal mapping
each entry's import-specifier string to its binding in the same order, plus
the fixed `baseUrl: import.meta.url` metadata field — checked in full on
the spec's round-trip example — and `generate` writes the formatter output
to the fixed file `fresh.gen.ts` inside the project root, overwriting any
existing content at that path. -/
theorem generate_renders_and_persists (dir : String) (m : Manifest) (success : Bool)
    (out : String) (fs : String → Option String) :
    (∃ rest, renderedManifest m.routes m.islands = headerComment ++ rest) ∧
    (List.mapIdx routeImportLine m.routes).length = m.routes.length ∧
    (List.mapIdx islandImportLine m.islands).length = m.islands.length ∧
    renderedManifest ["about.tsx", "index.tsx"] ["Counter.tsx"]
      = "// DO NOT EDIT. This file is generated by Fresh.\n// This file SHOULD be checked into source version control.\n// This file is automatically updated during development when running `dev.ts`.\n\nimport * as $0 from \"./routes/about.tsx\";\nimport * as $1 from \"./routes/index.tsx\";\nimport * as $$0 from \"./islands/Counter.tsx\";\n\nconst manifest = \x7b\n  routes: \x7b\n    \"./routes/about.tsx\": $0,\n    \"./routes/index.tsx\": $1,\n  \x7d,\n  islands: \x7b\n    \"./islands/Counter.tsx\": $$0,\n  \x7d,\n  baseUrl: import.meta.url,\n\x7d;\n\nexport default manifest;\n" ∧
    posixJoin "p" "./fresh.gen.ts" = "p/fresh.gen.ts" ∧
    (generateRun dir m (.ran success out)).1
      = [.fmtInvoke (renderedManifest m.routes m.islands),
         .fileWrite (posixJoin dir "./fresh.gen.ts") out] ∧
    applyEvents fs (generateRun dir m (.ran success out)).1 (posixJoin dir "./fresh.gen.ts")
      = some out := by
  refine ⟨⟨_, rfl⟩, List.length_mapIdx, List.length_mapIdx, by decide, by decide, rfl, ?_⟩
  simp [generateRun, applyEvents]

/-! ### Normalization lemmas (towards C10) -/

theorem pushSeg_clean (ab : Bool) (acc : List (List Char)) {s : List Char}
    (h1 : s ≠ []) (h2 : s ≠ ['.']) (h3 : s ≠ ['.', '.']) :
    pushSeg ab acc s = s :: acc := by
  unfold pushSeg
  rw [if_neg (not_or.mpr ⟨h1, h2⟩), if_neg h3]

theorem pushSeg_skip (ab : Bool) (acc : List (List Char)) :
    pushSeg ab acc [] = acc ∧ pushSeg ab acc ['.'] = acc := by
  constructor <;> simp [pushSeg]

theorem foldl_pushSeg_clean (ab : Bool) : ∀ (real acc : List (List Char)),
    (∀ s ∈ real, s ≠ [] ∧ s ≠ ['.'] ∧ s ≠ ['.', '.']) →
    List.foldl (pushSeg ab) acc real = real.reverse ++ acc
  | [], acc, _ => by simp
  | s :: real, acc, h => by
    have hs := h s (by simp)
    rw [List.foldl_cons, pushSeg_clean ab acc hs.1 hs.2.1 hs.2.2,
      foldl_pushSeg_clean ab real (s :: acc) (fun t ht => h t (by simp [ht]))]
    simp

theorem pushSeg_dots (j : Nat) :
    pushSeg true (List.replicate j ['.', '.']) ['.', '.']
      = List.replicate (j + 1) ['.', '.'] := by
  cases j with
  | zero => rfl
  | succ i => rw [List.replicate_succ, List.replicate_succ, List.replicate_succ]; rfl

theorem foldl_pushSeg_dots : ∀ (k j : Nat),
    List.foldl (pushSeg true) (List.replicate j ['.', '.']) (List.replicate k ['.', '.'])
      = List.replicate (k + j) ['.', '.']
  | 0, j => by simp
  | k + 1, j => by
    rw [List.replicate_succ, List.foldl_cons, pushSeg_dots j, foldl_pushSeg_dots k (j + 1)]
    congr 1
    omega

theorem foldl_pushSeg_shape (ab : Bool) : ∀ (segs acc : List (List Char)),
    (∃ (k : Nat) (real : List (List Char)),
      acc = real.reverse ++ List.replicate k ['.', '.'] ∧
      (∀ s ∈ real, s ≠ [] ∧ s ≠ ['.'] ∧ s ≠ ['.', '.']) ∧ (ab = false → k = 0)) →
    ∃ (k : Nat) (real : List (List Char)),
      List.foldl (pushSeg ab) acc segs = real.reverse ++ List.replicate k ['.', '.'] ∧
      (∀ s ∈ real, s ≠ [] ∧ s ≠ ['.'] ∧ s ≠ ['.', '.']) ∧ (ab = false → k = 0)
  | [], acc, h => h
  | s :: segs, acc, h => by
    rw [List.foldl_cons]
    apply foldl_pushSeg_shape ab segs
    obtain ⟨k, real, rfl, hclean, hk⟩ := h
    by_cases h0 : s = [] ∨ s = ['.']
    · rw [show pushSeg ab (real.reverse ++ List.replicate k ['.', '.']) s
          = real.reverse ++ List.replicate k ['.', '.'] from by unfold pushSeg; rw [if_pos h0]]
      exact ⟨k, real, rfl, hclean, hk⟩
    · by_cases hdd : s = ['.', '.']
      · subst hdd
        rcases List.eq_nil_or_concat real with rfl | ⟨real', a, rfl⟩
        · cases k with
          | zero =>
            cases ab with
            | true => exact ⟨1, [], by simp [pushSeg], by simp, by simp⟩
            | false => exact ⟨0, [], by simp [pushSeg], by simp, by simp⟩
          | succ j =>
            have hab : ab = true := by
              cases ab
              · exact absurd (hk rfl) (Nat.succ_ne_zero j)
              · rfl
            subst hab
            refine ⟨j + 2, [], ?_, by simp, by simp⟩
            simp only [List.reverse_nil, List.nil_append]
            rw [pushSeg_dots (j + 1)]
        · have ha := hclean a (by simp [List.concat_eq_append])
          refine ⟨k, real', ?_, fun t ht => hclean t (by simp [List.concat_eq_append, ht]), hk⟩
          rw [List.concat_eq_append, List.reverse_concat, List.cons_append]
          unfold pushSeg
          rw [if_neg (by simp), if_pos rfl]
          simp only [if_neg ha.2.2]
      · refine ⟨k, real ++ [s], ?_, ?_, hk⟩
        · rw [pushSeg_clean ab _ (fun hh => h0 (Or.inl hh)) (fun hh => h0 (Or.inr hh)) hdd,
            List.reverse_concat, List.cons_append]
        · intro t ht
          rcases List.mem_append.1 ht with ht | ht
          · exact hclean t ht
          · rw [List.mem_singleton.1 ht]
            exact ⟨fun hh => h0 (Or.inl hh), fun hh => h0 (Or.inr hh), hdd⟩

theorem normSegs_shape (ab : Bool) (segs : List (List Char)) :
    ∃ (k : Nat) (real : List (List Char)),
      normSegs ab segs = List.replicate k ['.', '.'] ++ real ∧
      (∀ s ∈ real, s ≠ [] ∧ s ≠ ['.'] ∧ s ≠ ['.', '.']) ∧ (ab = false → k = 0) := by
  obtain ⟨k, real, heq, hclean, hk⟩ :=
    foldl_pushSeg_shape ab segs [] ⟨0, [], rfl, by simp, fun _ => rfl⟩
  refine ⟨k, real, ?_, hclean, hk⟩
  unfold normSegs
  rw [heq]
  simp [List.reverse_append, List.reverse_replicate]

theorem normSegs_reduced_id (ab : Bool) (k : Nat) (real : List (List Char))
    (hclean : ∀ s ∈ real, s ≠ [] ∧ s ≠ ['.'] ∧ s ≠ ['.', '.'])
    (hk : ab = false → k = 0) :
    normSegs ab (List.replicate k ['.', '.'] ++ real)
      = List.replicate k ['.', '.'] ++ real := by
  unfold normSegs
  rw [List.foldl_append]
  have h1 : List.foldl (pushSeg ab) [] (List.replicate k ['.', '.'])
      = List.replicate k ['.', '.'] := by
    cases ab with
    | false => rw [hk rfl]; rfl
    | true =>
      have := foldl_pushSeg_dots k 0
      simpa using this
  rw [h1, foldl_pushSeg_clean ab real _ hclean]
  simp [List.reverse_append, List.reverse_replicate]

theorem pushSeg_mem (ab : Bool) (acc : List (List Char)) (s : List Char) :
    ∀ t ∈ pushSeg ab acc s, t ∈ acc ∨ t = s ∨ t = ['.', '.'] := by
  intro t ht
  unfold pushSeg at ht
  by_cases h0 : s = [] ∨ s = ['.']
  · rw [if_pos h0] at ht
    exact Or.inl ht
  · rw [if_neg h0] at ht
    by_cases hdd : s = ['.', '.']
    · rw [if_pos hdd] at ht
      cases acc with
      | nil =>
        cases ab with
        | true =>
          simp only [if_true] at ht
          rw [List.mem_singleton.1 ht]
          exact Or.inr (Or.inr rfl)
        | false => simp at ht
      | cons a rest =>
        replace ht : t ∈ (if a = ['.', '.'] then
            (if ab = true then ['.', '.'] :: a :: rest else a :: rest) else rest) := ht
        by_cases ha : a = ['.', '.']
        · rw [if_pos ha] at ht
          cases ab with
          | true =>
            simp only [if_true] at ht
            rcases List.mem_cons.1 ht with rfl | ht
            · exact Or.inr (Or.inr rfl)
            · exact Or.inl ht
          | false =>
            simp only [Bool.false_eq_true, if_false] at ht
            exact Or.inl ht
        · rw [if_neg ha] at ht
          exact Or.inl (List.mem_cons_of_mem a ht)
    · rw [if_neg hdd] at ht
      rcases List.mem_cons.1 ht with rfl | ht
      · exact Or.inr (Or.inl rfl)
      · exact Or.inl ht

theorem foldl_pushSeg_mem (ab : Bool) : ∀ (segs acc : List (List Char)) (t : List Char),
    t ∈ List.foldl (pushSeg ab) acc segs → t ∈ acc ∨ t ∈ segs ∨ t = ['.', '.']
  | [], acc, t, ht => Or.inl ht
  | s :: segs, acc, t, ht => by
    rw [List.foldl_cons] at ht
    rcases foldl_pushSeg_mem ab segs (pushSeg ab acc s) t ht with h | h | h
    · rcases pushSeg_mem ab acc s t h with h' | h' | h'
      · exact Or.inl h'
      · exact Or.inr (Or.inl (h' ▸ List.mem_cons_self s segs))
      · exact Or.inr (Or.inr h')
    · exact Or.inr (Or.inl (List.mem_cons_of_mem s h))
    · exact Or.inr (Or.inr h)

theorem mem_normSegs (ab : Bool) (segs : List (List Char)) (t : List Char)
    (ht : t ∈ normSegs ab segs) : t ∈ segs ∨ t = ['.', '.'] := by
  unfold normSegs at ht
  rw [List.mem_reverse] at ht
  rcases foldl_pushSeg_mem ab segs [] t ht with h | h
  · exact absurd h (List.not_mem_nil t)
  · exact h

theorem normSegs_cons_dot (ab : Bool) (segs : List (List Char)) :
    normSegs ab (['.'] :: segs) = normSegs ab segs := by
  unfold normSegs
  rw [List.foldl_cons, (pushSeg_skip ab []).2]

theorem normSegs_append_nil (ab : Bool) (segs : List (List Char)) :
    normSegs ab (segs ++ [[]]) = normSegs ab segs := by
  unfold normSegs
  rw [List.foldl_append, List.foldl_cons, (pushSeg_skip ab _).1]
  rfl

theorem mem_splitChar_not_sep : ∀ (sep : Char) (cs s : List Char), s ∈ splitChar sep cs → sep ∉ s
  | sep, [], s, hs => by
    simp only [splitChar, List.mem_singleton] at hs
    simp [hs]
  | sep, c :: cs, s, hs => by
    by_cases h : c = sep
    · rw [show splitChar sep (c :: cs) = [] :: splitChar sep cs from by simp [splitChar, h]] at hs
      rcases List.mem_cons.1 hs with rfl | hs
      · simp
      · exact mem_splitChar_not_sep sep cs s hs
    · rcases hsp : splitChar sep cs with _ | ⟨s0, ss⟩
      · exact absurd hsp (splitChar_ne_nil sep cs)
      · rw [show splitChar sep (c :: cs) = (c :: s0) :: ss from by simp [splitChar, h, hsp]] at hs
        rcases List.mem_cons.1 hs with rfl | hs
        · intro hmem
          rcases List.mem_cons.1 hmem with hh | hh
          · exact h hh.symm
          · exact mem_splitChar_not_sep sep cs s0 (by rw [hsp]; simp) hh
        · exact mem_splitChar_not_sep sep cs s (by rw [hsp]; simp [hs])

theorem mem_splitChar_subset : ∀ (sep : Char) (cs s : List Char), s ∈ splitChar sep cs →
    ∀ c ∈ s, c ∈ cs
  | sep, [], s, hs => by
    simp only [splitChar, List.mem_singleton] at hs
    simp [hs]
  | sep, c :: cs, s, hs => by
    by_cases h : c = sep
    · rw [show splitChar sep (c :: cs) = [] :: splitChar sep cs from by simp [splitChar, h]] at hs
      rcases List.mem_cons.1 hs with rfl | hs
      · simp
      · exact fun d hd => List.mem_cons_of_mem c (mem_splitChar_subset sep cs s hs d hd)
    · rcases hsp : splitChar sep cs with _ | ⟨s0, ss⟩
      · exact absurd hsp (splitChar_ne_nil sep cs)
      · rw [show splitChar sep (c :: cs) = (c :: s0) :: ss from by simp [splitChar, h, hsp]] at hs
        rcases List.mem_cons.1 hs with rfl | hs
        · intro d hd
          rcases List.mem_cons.1 hd with rfl | hd
          · simp
          · exact List.mem_cons_of_mem c
              (mem_splitChar_subset sep cs s0 (by rw [hsp]; simp) d hd)
        · exact fun d hd => List.mem_cons_of_mem c
            (mem_splitChar_subset sep cs s (by rw [hsp]; simp [hs]) d hd)

theorem splitChar_joinChar : ∀ (sep : Char) (L : List (List Char)), L ≠ [] →
    (∀ s ∈ L, sep ∉ s) → splitChar sep (joinChar sep L) = L
  | sep, [], h, _ => absurd rfl h
  | sep, [s], _, hs => by
    show splitChar sep s = [s]
    exact splitChar_of_not_mem sep s (hs s (by simp))
  | sep, s :: t :: ts, _, hs => by
    rw [joinChar_cons sep s (by simp), splitChar_append sep s (joinChar sep (t :: ts)),
      splitChar_of_not_mem sep s (hs s (by simp)),
      splitChar_joinChar sep (t :: ts) (by simp) (fun u hu => hs u (List.mem_cons_of_mem s hu))]
    rfl

theorem joinChar_head (sep : Char) (s : List Char) (L : List (List Char)) (hs : s ≠ []) :
    (joinChar sep (s :: L)).head? = s.head? := by
  cases L with
  | nil => rfl
  | cons t ts => rw [joinChar_cons sep s (by simp), List.head?_append_of_ne_nil s hs]

theorem joinChar_concat_ne_nil (sep : Char) : ∀ (L : List (List Char)) (a : List Char),
    a ≠ [] → joinChar sep (L ++ [a]) ≠ []
  | [], a, ha => by simpa [joinChar] using ha
  | s :: L, a, _ => by
    rw [List.cons_append, joinChar_cons sep s (by simp)]
    simp

theorem joinChar_ne_nil (sep : Char) : ∀ (L : List (List Char)), L ≠ [] →
    (∀ s ∈ L, s ≠ []) → joinChar sep L ≠ []
  | [], h, _ => absurd rfl h
  | [s], _, hel => by simpa [joinChar] using hel s (by simp)
  | s :: t :: ts, _, _ => by
    rw [joinChar_cons sep s (by simp)]
    simp

theorem joinChar_getLast (sep : Char) : ∀ (L : List (List Char)) (a : List Char), a ≠ [] →
    (joinChar sep (L ++ [a])).getLast? = a.getLast?
  | [], a, _ => rfl
  | s :: L, a, ha => by
    rw [List.cons_append, joinChar_cons sep s (by simp),
      List.getLast?_append_of_ne_nil s (by simp),
      show sep :: joinChar sep (L ++ [a]) = [sep] ++ joinChar sep (L ++ [a]) from rfl,
      List.getLast?_append_of_ne_nil [sep] (joinChar_concat_ne_nil sep L a ha)]
    exact joinChar_getLast sep L a ha

theorem mem_joinChar : ∀ (sep : Char) (L : List (List Char)) (c : Char),
    c ∈ joinChar sep L → c = sep ∨ ∃ s ∈ L, c ∈ s
  | _, [], c, hc => absurd hc (List.not_mem_nil c)
  | _, [s], c, hc => Or.inr ⟨s, by simp, hc⟩
  | sep, s :: t :: ts, c, hc => by
    rw [joinChar_cons sep s (by simp)] at hc
    rcases List.mem_append.1 hc with hc | hc
    · exact Or.inr ⟨s, by simp, hc⟩
    · rcases List.mem_cons.1 hc with rfl | hc
      · exact Or.inl rfl
      · rcases mem_joinChar sep (t :: ts) c hc with h | ⟨u, hu, hcu⟩
        · exact Or.inl h
        · exact Or.inr ⟨u, List.mem_cons_of_mem s hu, hcu⟩

theorem normSegs_el_ne_nil (ab : Bool) (segs : List (List Char)) :
    ∀ s ∈ normSegs ab segs, s ≠ [] := by
  obtain ⟨k, real, hshape, hclean, _⟩ := normSegs_shape ab segs
  rw [hshape]
  intro s hs
  rcases List.mem_append.1 hs with hs | hs
  · rw [List.eq_of_mem_replicate hs]
    simp
  · exact (hclean s hs).1

theorem normSegs_split_no_sep (cs : List Char) :
    ∀ s ∈ normSegs true (splitChar '/' cs), '/' ∉ s := by
  intro s hs
  rcases mem_normSegs true _ s hs with h | rfl
  · exact mem_splitChar_not_sep '/' cs s h
  · decide

theorem normSegs_idem (cs : List Char) :
    normSegs true (normSegs true (splitChar '/' cs)) = normSegs true (splitChar '/' cs) := by
  obtain ⟨k, real, hshape, hclean, _⟩ := normSegs_shape true (splitChar '/' cs)
  rw [hshape]
  exact normSegs_reduced_id true k real hclean (by simp)

theorem posixNormalize_rel (p : String) (hne : p.data ≠ []) (hrel : p.data.head? ≠ some '/') :
    (posixNormalize p).data =
      (if joinChar '/' (normSegs true (splitChar '/' p.data)) = [] then ['.']
        else joinChar '/' (normSegs true (splitChar '/' p.data))) ++
      (if p.data.getLast? = some '/' then ['/'] else []) := by
  unfold posixNormalize
  rw [if_neg hne]
  have habs : decide (p.data.head? = some '/') = false := decide_eq_false hrel
  by_cases hcore : joinChar '/' (normSegs true (splitChar '/' p.data)) = [] <;>
    by_cases htr : p.data.getLast? = some '/' <;>
      simp [habs, hcore, htr]

theorem posixNormalize_empty (p : String) (hne : p.data = []) : posixNormalize p = "." := by
  unfold posixNormalize
  rw [if_pos hne]

theorem posixNormalize_head (p : String) (hrel : p.data.head? ≠ some '/') :
    (posixNormalize p).data.head? ≠ some '/' := by
  by_cases hne : p.data = []
  · rw [posixNormalize_empty p hne]
    decide
  · rw [posixNormalize_rel p hne hrel]
    by_cases hcore : joinChar '/' (normSegs true (splitChar '/' p.data)) = []
    · rw [if_pos hcore, List.head?_append_of_ne_nil ['.'] (by simp)]
      decide
    · rw [if_neg hcore, List.head?_append_of_ne_nil _ hcore]
      have hS_ne : normSegs true (splitChar '/' p.data) ≠ [] := by
        intro h
        apply hcore
        rw [h]
        rfl
      obtain ⟨s0, rest, hS⟩ := List.exists_cons_of_ne_nil hS_ne
      have hs0S : s0 ∈ normSegs true (splitChar '/' p.data) := by rw [hS]; simp
      have hs0ne : s0 ≠ [] := normSegs_el_ne_nil true _ s0 hs0S
      rw [hS, joinChar_head '/' s0 rest hs0ne]
      intro hhead
      exact normSegs_split_no_sep p.data s0 hs0S (List.mem_of_mem_head? (by simp [hhead]))

theorem posixNormalize_getLast (p : String) (hne : p.data ≠ [])
    (hrel : p.data.head? ≠ some '/')
    (hcore : joinChar '/' (normSegs true (splitChar '/' p.data)) ≠ []) :
    ((posixNormalize p).data.getLast? = some '/') ↔ (p.data.getLast? = some '/') := by
  rw [posixNormalize_rel p hne hrel, if_neg hcore]
  by_cases htr : p.data.getLast? = some '/'
  · rw [if_pos htr, List.getLast?_append_of_ne_nil _ (by simp)]
    simp [htr]
  · rw [if_neg htr, List.append_nil]
    have hS_ne : normSegs true (splitChar '/' p.data) ≠ [] := by
      intro h
      apply hcore
      rw [h]
      rfl
    rcases List.eq_nil_or_concat (normSegs true (splitChar '/' p.data)) with h | ⟨L, a, hS⟩
    · exact absurd h hS_ne
    · rw [List.concat_eq_append] at hS
      have haS : a ∈ normSegs true (splitChar '/' p.data) := by rw [hS]; simp
      have hane : a ≠ [] := normSegs_el_ne_nil true _ a haS
      rw [hS, joinChar_getLast '/' L a hane]
      constructor
      · intro hlast
        exact absurd (List.mem_of_mem_getLast? (by simp [hlast]))
          (normSegs_split_no_sep p.data a haS)
      · intro h
        exact absurd h htr

theorem posixNormalize_rebuild (w : String) (S : List (List Char))
    (hw : w.data ≠ []) (hrel : w.data.head? ≠ some '/')
    (hsegs : normSegs true (splitChar '/' w.data) = S) (hS : S ≠ [])
    (hel : ∀ s ∈ S, s ≠ []) :
    (posixNormalize w).data
      = joinChar '/' S ++ (if w.data.getLast? = some '/' then ['/'] else []) := by
  rw [posixNormalize_rel w hw hrel, hsegs, if_neg (joinChar_ne_nil '/' S hS hel)]

theorem posixNormalize_idem (p : String) (hrel : p.data.head? ≠ some '/') :
    posixNormalize (posixNormalize p) = posixNormalize p := by
  by_cases hne : p.data = []
  · rw [posixNormalize_empty p hne]
    decide
  · by_cases hcore : joinChar '/' (normSegs true (splitChar '/' p.data)) = []
    · have hdata := posixNormalize_rel p hne hrel
      rw [if_pos hcore] at hdata
      by_cases htr : p.data.getLast? = some '/'
      · rw [if_pos htr] at hdata
        rw [show posixNormalize p = "./" from String.ext (by rw [hdata]; rfl)]
        decide
      · rw [if_neg htr] at hdata
        rw [show posixNormalize p = "." from String.ext (by rw [hdata]; rfl)]
        decide
    · have hS_ne : normSegs true (splitChar '/' p.data) ≠ [] := by
        intro h
        apply hcore
        rw [h]
        rfl
      have hel : ∀ s ∈ normSegs true (splitChar '/' p.data), s ≠ [] :=
        normSegs_el_ne_nil true _
      have hnosep : ∀ s ∈ normSegs true (splitChar '/' p.data), '/' ∉ s :=
        normSegs_split_no_sep p.data
      have hdata := posixNormalize_rel p hne hrel
      rw [if_neg hcore] at hdata
      have hwne : (posixNormalize p).data ≠ [] := by
        rw [hdata]
        simp [hcore]
      have hsegs2 : normSegs true (splitChar '/' (posixNormalize p).data)
          = normSegs true (splitChar '/' p.data) := by
        rw [hdata]
        by_cases htr : p.data.getLast? = some '/'
        · rw [if_pos htr,
            show ['/'] = ('/' : Char) :: [] from rfl,
            splitChar_append '/' _ [],
            splitChar_joinChar '/' _ hS_ne hnosep]
          rw [show splitChar '/' [] = [[]] from rfl, normSegs_append_nil]
          exact normSegs_idem p.data
        · rw [if_neg htr, List.append_nil, splitChar_joinChar '/' _ hS_ne hnosep]
          exact normSegs_idem p.data
      apply String.ext
      rw [posixNormalize_rebuild (posixNormalize p) (normSegs true (splitChar '/' p.data))
        hwne (posixNormalize_head p hrel) hsegs2 hS_ne hel]
      have hiff := posixNormalize_getLast p hne hrel hcore
      by_cases htr : p.data.getLast? = some '/'
      · rw [if_pos (hiff.2 htr), hdata, if_pos htr]
      · rw [if_neg (fun hh => htr (hiff.1 hh)), hdata, if_neg htr]

theorem normSegs_split_norm (p : String) (hne : p.data ≠ []) (hrel : p.data.head? ≠ some '/')
    (hcore : joinChar '/' (normSegs true (splitChar '/' p.data)) ≠ []) :
    normSegs true (splitChar '/' (posixNormalize p).data)
      = normSegs true (splitChar '/' p.data) := by
  have hS_ne : normSegs true (splitChar '/' p.data) ≠ [] := by
    intro h
    apply hcore
    rw [h]
    rfl
  have hnosep : ∀ s ∈ normSegs true (splitChar '/' p.data), '/' ∉ s :=
    normSegs_split_no_sep p.data
  have hdata := posixNormalize_rel p hne hrel
  rw [if_neg hcore] at hdata
  rw [hdata]
  by_cases htr : p.data.getLast? = some '/'
  · rw [if_pos htr, show ['/'] = ('/' : Char) :: [] from rfl, splitChar_append '/' _ [],
      splitChar_joinChar '/' _ hS_ne hnosep, show splitChar '/' [] = [[]] from rfl,
      normSegs_append_nil]
    exact normSegs_idem p.data
  · rw [if_neg htr, List.append_nil, splitChar_joinChar '/' _ hS_ne hnosep]
    exact normSegs_idem p.data

theorem posixNormalize_dotslash (p : String) (hrel : p.data.head? ≠ some '/')
    (hdot : (posixNormalize p).data.head? ≠ some '.') :
    posixNormalize ⟨'.' :: '/' :: (posixNormalize p).data⟩ = posixNormalize p := by
  by_cases hne : p.data = []
  · rw [posixNormalize_empty p hne] at hdot
    exact absurd rfl hdot
  · by_cases hcore : joinChar '/' (normSegs true (splitChar '/' p.data)) = []
    · have hdata := posixNormalize_rel p hne hrel
      rw [if_pos hcore] at hdata
      exfalso
      apply hdot
      rw [hdata]
      by_cases htr : p.data.getLast? = some '/'
      · rw [if_pos htr]
        rfl
      · rw [if_neg htr]
        rfl
    · have hS_ne : normSegs true (splitChar '/' p.data) ≠ [] := by
        intro h
        apply hcore
        rw [h]
        rfl
      have hel : ∀ s ∈ normSegs true (splitChar '/' p.data), s ≠ [] :=
        normSegs_el_ne_nil true _
      have hdata := posixNormalize_rel p hne hrel
      rw [if_neg hcore] at hdata
      have hqne : (posixNormalize p).data ≠ [] := by
        rw [hdata]
        simp [hcore]
      have hsegsw : normSegs true
          (splitChar '/' (⟨'.' :: '/' :: (posixNormalize p).data⟩ : String).data)
          = normSegs true (splitChar '/' p.data) := by
        show normSegs true (splitChar '/' ('.' :: '/' :: (posixNormalize p).data))
          = normSegs true (splitChar '/' p.data)
        rw [show splitChar '/' ('.' :: '/' :: (posixNormalize p).data)
            = ['.'] :: splitChar '/' (posixNormalize p).data from rfl,
          normSegs_cons_dot]
        exact normSegs_split_norm p hne hrel hcore
      have hlastw : (⟨'.' :: '/' :: (posixNormalize p).data⟩ : String).data.getLast?
          = (posixNormalize p).data.getLast? := by
        show ('.' :: '/' :: (posixNormalize p).data).getLast? = (posixNormalize p).data.getLast?
        rw [show '.' :: '/' :: (posixNormalize p).data
            = ['.', '/'] ++ (posixNormalize p).data from rfl,
          List.getLast?_append_of_ne_nil _ hqne]
      apply String.ext
      rw [posixNormalize_rebuild ⟨'.' :: '/' :: (posixNormalize p).data⟩
        (normSegs true (splitChar '/' p.data)) (by simp) (by simp) hsegsw hS_ne hel, hlastw]
      have hiff := posixNormalize_getLast p hne hrel hcore
      by_cases htr : p.data.getLast? = some '/'
      · rw [if_pos (hiff.2 htr), hdata, if_pos htr]
      · rw [if_neg (fun hh => htr (hiff.1 hh)), hdata, if_neg htr]

theorem fixSlashes_id : ∀ (cs : List Char), '\\' ∉ cs → fixSlashes cs = cs
  | [], _ => rfl
  | c :: cs, h => by
    have hc : c ≠ '\\' := fun hh => h (hh ▸ List.mem_cons_self c cs)
    simp only [fixSlashes, List.map_cons]
    rw [if_neg hc]
    exact congrArg (c :: ·) (fixSlashes_id cs (fun hh => h (List.mem_cons_of_mem c hh)))

theorem mem_posixNormalize (p : String) (hrel : p.data.head? ≠ some '/') :
    ∀ c ∈ (posixNormalize p).data, c ∈ p.data ∨ c = '/' ∨ c = '.' := by
  intro c hc
  by_cases hne : p.data = []
  · rw [posixNormalize_empty p hne] at hc
    right
    right
    simpa using hc
  · rw [posixNormalize_rel p hne hrel] at hc
    rcases List.mem_append.1 hc with hc | hc
    · split at hc
      · right
        right
        simpa using hc
      · rcases mem_joinChar '/' _ c hc with rfl | ⟨s, hs, hcs⟩
        · right
          left
          rfl
        · rcases mem_normSegs true _ s hs with hs' | rfl
          · exact Or.inl (mem_splitChar_subset '/' p.data s hs' c hcs)
          · right
            right
            rcases List.mem_cons.1 hcs with rfl | hcs
            · rfl
            · simpa using hcs
    · split at hc
      · right
        left
        simpa using hc
      · exact absurd hc (List.not_mem_nil c)

theorem no_backslash_posixNormalize (p : String) (hb : '\\' ∉ p.data)
    (hrel : p.data.head? ≠ some '/') : '\\' ∉ (posixNormalize p).data := by
  intro hc
  rcases mem_posixNormalize p hrel '\\' hc with h | h | h
  · exact hb h
  · exact absurd h (by decide)
  · exact absurd h (by decide)

/-! ### C10 — (non-)idempotence of `toImportSpecifier` -/

/-- Claim C10 (counterexample): `toImportSpecifier` is not idempotent for
every path string.  On the absolute path `/a` it yields `.//a`, which a
second application collapses to `./a`; on the backslash path `a\..` it
yields `./a/..`, which a second application collapses to `.`. -/
theorem toImportSpecifier_not_idempotent :
    toImportSpecifier (toImportSpecifier "/a") ≠ toImportSpecifier "/a" ∧
    toImportSpecifier (toImportSpecifier "a\\..") ≠ toImportSpecifier "a\\.." := by
  constructor <;> decide

/-- Claim C10 (amended): on every path string that contains no backslash and
does not start with `/` (i.e. is relative), `toImportSpecifier` is
idempotent: re-deriving an already-derived specifier never changes it. -/
theorem toImportSpecifier_idem (p : String) (hb : '\\' ∉ p.data)
    (hrel : p.data.head? ≠ some '/') :
    toImportSpecifier (toImportSpecifier p) = toImportSpecifier p := by
  have hqb : '\\' ∉ (posixNormalize p).data := no_backslash_posixNormalize p hb hrel
  have hbase : specifierBase p = (posixNormalize p).data := fixSlashes_id _ hqb
  by_cases hh : (specifierBase p).head? = some '.'
  · have ht : toImportSpecifier p = posixNormalize p := by
      simp only [toImportSpecifier, hbase]
      rw [if_pos (hbase ▸ hh)]
    rw [ht]
    have hbase2 : specifierBase (posixNormalize p) = (posixNormalize p).data := by
      unfold specifierBase
      rw [posixNormalize_idem p hrel]
      exact fixSlashes_id _ hqb
    simp only [toImportSpecifier, hbase2, if_pos (hbase ▸ hh)]
  · have ht : toImportSpecifier p = ⟨'.' :: '/' :: (posixNormalize p).data⟩ := by
      simp only [toImportSpecifier, hbase]
      rw [if_neg (hbase ▸ hh)]
    rw [ht]
    have hdot : (posixNormalize p).data.head? ≠ some '.' := by
      rw [← hbase]
      exact hh
    have hbase3 : specifierBase ⟨'.' :: '/' :: (posixNormalize p).data⟩
        = (posixNormalize p).data := by
      unfold specifierBase
      rw [posixNormalize_dotslash p hrel hdot]
      exact fixSlashes_id _ hqb
    simp only [toImportSpecifier, hbase3, if_neg hdot]

/-- Witness for the amended C10 at a concrete relative path. -/
theorem toImportSpecifier_idem_witness :
    '\\' ∉ ("sub/dir.ts" : String).data ∧
    ("sub/dir.ts" : String).data.head? ≠ some '/' ∧
    toImportSpecifier (toImportSpecifier "sub/dir.ts") = toImportSpecifier "sub/dir.ts" :=
  ⟨by decide, by decide, toImportSpecifier_idem "sub/dir.ts" (by decide) (by decide)⟩

end FreshDev
